import Mathlib

/-!
Verification of the circular-queue core of the Parking_CQ repository.

The repository contains two Python variants of the same data structure:
`improved_app.py` (class `CircularQueue`, the full-featured variant) and
`app.py` (class `CircularQueue`, the basic variant).  Both hold a
fixed-length array `data` of `capacity` optional slot records, a `front`
pointer and a `size` counter.  We embed the queue state as a Lean
structure over `List (Option SlotRecord)` and translate every method
directly from the Python source.  Python exceptions are modelled with
`Except`; the exception carries its constructor kind (OverflowError /
IndexError) and its message string, exactly as raised by the source.
-/

/-- A parked-car record: the dicts `{'id': car_id, 'entry': datetime.now()}`
built by both GUI layers before calling `enqueue`.  The timestamp is an
abstract `Nat`; the queue never inspects it. -/
structure SlotRecord where
  id : String
  entry : Nat
deriving DecidableEq

/-- Errors raised by the queue methods: `OverflowError(msg)` from `enqueue`
and `IndexError(msg)` from `dequeue`, with their message strings. -/
inductive QErr where
  | overflowError (msg : String)
  | indexError (msg : String)
deriving DecidableEq

instance instDecEqExcept {ε α : Type} [DecidableEq ε] [DecidableEq α] :
    DecidableEq (Except ε α) := fun x y =>
  match x, y with
  | .ok a, .ok b =>
    if h : a = b then isTrue (congrArg Except.ok h)
    else isFalse (fun hc => h (Except.ok.inj hc))
  | .ok _, .error _ => isFalse (fun hc => Except.noConfusion hc)
  | .error _, .ok _ => isFalse (fun hc => Except.noConfusion hc)
  | .error e, .error f =>
    if h : e = f then isTrue (congrArg Except.error h)
    else isFalse (fun hc => h (Except.error.inj hc))

/-- State of `CircularQueue` (both variants share these fields):
`capacity`, the list `data` of length `capacity` whose entries are `None`
or a record, `front`, and `size`. -/
structure CircularQueue where
  capacity : Nat
  data : List (Option SlotRecord)
  front : Nat
  size : Nat
deriving DecidableEq

namespace CircularQueue

/-- Translation of `__init__` from `improved_app.py` (lines 20-24):
`capacity = max(4, capacity)`, all slots `None`, `front = 0`, `size = 0`.
The requested capacity is an `Int` since Python callers may pass any
integer. -/
def init (c : Int) : CircularQueue :=
  let cap : Nat := (max 4 c).toNat
  { capacity := cap, data := List.replicate cap none, front := 0, size := 0 }

/-- Translation of `is_full`: `size == capacity`. -/
def is_full (q : CircularQueue) : Bool :=
  q.size == q.capacity

/-- Translation of `is_empty`: `size == 0`. -/
def is_empty (q : CircularQueue) : Bool :=
  q.size == 0

/-- Translation of `enqueue` from `improved_app.py` (lines 32-37): raise
`OverflowError("Queue full")` when full, else write `item` at absolute
index `(front + size) % capacity` and increment `size`.  The stored item
is an `Option` because a Python slot stores exactly what `enqueue` was
given; public callers always pass a real record. -/
def enqueue (q : CircularQueue) (item : Option SlotRecord) : Except QErr CircularQueue :=
  if q.is_full then
    .error (.overflowError "Queue full")
  else
    let idx := (q.front + q.size) % q.capacity
    .ok { q with data := q.data.set idx item, size := q.size + 1 }

/-- Translation of `dequeue` from `improved_app.py` (lines 39-46): raise
`IndexError("Queue empty")` when empty, else return `data[front]`, clear
that slot, advance `front` modulo `capacity` and decrement `size`. -/
def dequeue (q : CircularQueue) : Except QErr (Option SlotRecord × CircularQueue) :=
  if q.is_empty then
    .error (.indexError "Queue empty")
  else
    let item := q.data.getD q.front none
    .ok (item, { q with data := q.data.set q.front none,
                        front := (q.front + 1) % q.capacity,
                        size := q.size - 1 })

/-- Translation of `content_list` (lines 48-52): the logical sequence,
`data[(front + i) % capacity]` for `i = 0 .. size-1`. -/
def content_list (q : CircularQueue) : List (Option SlotRecord) :=
  (List.range q.size).map (fun i => q.data.getD ((q.front + i) % q.capacity) none)

/-- Loop body of `find_index_by_id` (lines 54-60): scan the relative
positions in order; on the first truthy item whose `id` equals `car_id`,
return its absolute index. -/
def findIdxAux (q : CircularQueue) (car_id : String) : List Nat → Option Nat
  | [] => none
  | i :: rest =>
    match q.data.getD ((q.front + i) % q.capacity) none with
    | some item =>
      if item.id == car_id then some ((q.front + i) % q.capacity)
      else findIdxAux q car_id rest
    | none => findIdxAux q car_id rest

/-- Translation of `find_index_by_id` (lines 54-60): the loop runs over
`range(size)`. -/
def find_index_by_id (q : CircularQueue) (car_id : String) : Option Nat :=
  findIdxAux q car_id (List.range q.size)

/-- Loop of `remove_by_index` (lines 69-72) that computes the relative
index: the first `i` with `(front + i) % capacity == idx_to_remove`. -/
def findRelAux (q : CircularQueue) (idx_to_remove : Nat) : List Nat → Option Nat
  | [] => none
  | i :: rest =>
    if (q.front + i) % q.capacity == idx_to_remove then some i
    else findRelAux q idx_to_remove rest

/-- The unguarded re-insertion loop `for it in new_items: self.enqueue(it)`
of `remove_by_index` (lines 80-81).  An `OverflowError` raised by `enqueue`
would propagate, so the result is an `Except`. -/
def enqueueAll (q : CircularQueue) : List (Option SlotRecord) → Except QErr CircularQueue
  | [] => .ok q
  | it :: rest =>
    match q.enqueue it with
    | .ok q' => enqueueAll q' rest
    | .error e => .error e

/-- Translation of `remove_by_index` (lines 62-82): return `False` when
empty or when no relative position maps to `idx_to_remove`; otherwise drop
that element from the logical sequence and rebuild the structure at the
same capacity by re-enqueueing the survivors from a cleared state. -/
def remove_by_index (q : CircularQueue) (idx_to_remove : Nat) :
    Except QErr (Bool × CircularQueue) :=
  if q.size == 0 then .ok (false, q)
  else
    let items := q.content_list
    match findRelAux q idx_to_remove (List.range items.length) with
    | none => .ok (false, q)
    | some rel =>
      let new_items := items.take rel ++ items.drop (rel + 1)
      match enqueueAll { q with data := List.replicate q.capacity none,
                                front := 0, size := 0 } new_items with
      | .ok q' => .ok (true, q')
      | .error e => .error e

/-- The guarded re-insertion loop of `resize_preserve` (lines 90-92):
`for it in items: if self.is_full(): break; self.enqueue(it)`.  The
`.error` branch is syntactically dead because `enqueue` only fails when
`is_full`, which the guard has just excluded. -/
def enqueueUpto (q : CircularQueue) : List (Option SlotRecord) → CircularQueue
  | [] => q
  | it :: rest =>
    if q.is_full then q
    else
      match q.enqueue it with
      | .ok q' => enqueueUpto q' rest
      | .error _ => q

/-- Variant of the `resize_preserve` loop that would propagate an
`OverflowError` raised by `enqueue`, exactly as Python would; used to
state that the error branch is unreachable. -/
def enqueueUptoE (q : CircularQueue) : List (Option SlotRecord) → Except QErr CircularQueue
  | [] => .ok q
  | it :: rest =>
    if q.is_full then .ok q
    else
      match q.enqueue it with
      | .ok q' => enqueueUptoE q' rest
      | .error e => .error e

/-- Translation of `resize_preserve` (lines 84-92): capture the logical
sequence, replace the storage by `max(4, new_capacity)` empty slots with
`front = size = 0`, then re-enqueue the captured items until full. -/
def resize_preserve (q : CircularQueue) (new_capacity : Int) : CircularQueue :=
  let items := q.content_list
  let cap : Nat := (max 4 new_capacity).toNat
  enqueueUpto { capacity := cap, data := List.replicate cap none,
                front := 0, size := 0 } items

end CircularQueue

namespace BasicQueue

open CircularQueue

/-- Translation of `__init__` from `app.py` (lines 14-18); identical to the
improved variant. -/
def init (c : Int) : CircularQueue :=
  let cap : Nat := (max 4 c).toNat
  { capacity := cap, data := List.replicate cap none, front := 0, size := 0 }

/-- Translation of `is_full` from `app.py` (lines 20-21). -/
def is_full (q : CircularQueue) : Bool :=
  q.size == q.capacity

/-- Translation of `is_empty` from `app.py` (lines 23-24). -/
def is_empty (q : CircularQueue) : Bool :=
  q.size == 0

/-- Translation of `enqueue` from `app.py` (lines 26-31): identical to the
improved variant except the message is `"Queue is full"`. -/
def enqueue (q : CircularQueue) (item : Option SlotRecord) : Except QErr CircularQueue :=
  if BasicQueue.is_full q then
    .error (.overflowError "Queue is full")
  else
    let idx := (q.front + q.size) % q.capacity
    .ok { q with data := q.data.set idx item, size := q.size + 1 }

/-- Translation of `dequeue` from `app.py` (lines 33-40): identical to the
improved variant except the message is `"Queue is empty"`. -/
def dequeue (q : CircularQueue) : Except QErr (Option SlotRecord × CircularQueue) :=
  if BasicQueue.is_empty q then
    .error (.indexError "Queue is empty")
  else
    let item := q.data.getD q.front none
    .ok (item, { q with data := q.data.set q.front none,
                        front := (q.front + 1) % q.capacity,
                        size := q.size - 1 })

/-- Translation of `content_list` from `app.py` (lines 42-47). -/
def content_list (q : CircularQueue) : List (Option SlotRecord) :=
  (List.range q.size).map (fun i => q.data.getD ((q.front + i) % q.capacity) none)

end BasicQueue

namespace CircularQueue

/-- One public call as issued by the GUI layer: enqueue of a record,
dequeue, remove-by-absolute-index, or resize.  -/
inductive Op where
  | enq (r : SlotRecord)
  | deq
  | removeAt (idx : Nat)
  | resize (c : Int)

/-- Applying one public call to a state.  A raised `OverflowError` /
`IndexError` is caught by the GUI layer and leaves the queue unchanged;
the `.error` branch of `remove_by_index` is unreachable from valid states
(proved below). -/
def applyOp (q : CircularQueue) : Op → CircularQueue
  | .enq r =>
    match q.enqueue (some r) with
    | .ok q' => q'
    | .error _ => q
  | .deq =>
    match q.dequeue with
    | .ok (_, q') => q'
    | .error _ => q
  | .removeAt idx =>
    match q.remove_by_index idx with
    | .ok (_, q') => q'
    | .error _ => q
  | .resize c => q.resize_preserve c

/-- The data-model invariants of spec §3 for a queue state: the storage
has exactly `capacity` cells (so each absolute index holds at most one
record), `capacity ≥ 4`, `0 ≤ size ≤ capacity` (the lower bound is
intrinsic to `Nat`), `front` is a valid absolute index, and the occupied
absolute positions are exactly `{(front + i) % capacity : 0 ≤ i < size}`. -/
def Valid (q : CircularQueue) : Prop :=
  q.data.length = q.capacity ∧
  4 ≤ q.capacity ∧
  q.size ≤ q.capacity ∧
  q.front < q.capacity ∧
  ∀ j, j < q.capacity →
    ((q.data.getD j none).isSome ↔ ∃ i, i < q.size ∧ (q.front + i) % q.capacity = j)

instance (q : CircularQueue) : Decidable (Valid q) := by
  unfold Valid
  infer_instance

/-- Shifted residues of distinct small offsets are distinct. -/
theorem mod_shift_inj {cap f i j : Nat} (hi : i < cap) (hj : j < cap)
    (h : (f + i) % cap = (f + j) % cap) : i = j := by
  have h2 : i ≡ j [MOD cap] := Nat.ModEq.add_left_cancel' f h
  rwa [Nat.ModEq, Nat.mod_eq_of_lt hi, Nat.mod_eq_of_lt hj] at h2

theorem getD_set_self {l : List (Option SlotRecord)} {i : Nat} (v : Option SlotRecord)
    (h : i < l.length) : (l.set i v).getD i none = v := by
  simp [List.getD_eq_getElem?_getD, List.getElem?_set, h]

theorem getD_set_ne {l : List (Option SlotRecord)} {i j : Nat} (v : Option SlotRecord)
    (h : i ≠ j) : (l.set i v).getD j none = l.getD j none := by
  simp [List.getD_eq_getElem?_getD, List.getElem?_set, h]

theorem getD_replicate {n i : Nat} :
    (List.replicate n (none : Option SlotRecord)).getD i none = none := by
  simp [List.getD_eq_getElem?_getD, List.getElem?_replicate]
  split <;> rfl

theorem content_list_length (q : CircularQueue) : q.content_list.length = q.size := by
  simp [content_list]

theorem content_list_getD (q : CircularQueue) {i : Nat} (h : i < q.size) :
    q.content_list.getD i none = q.data.getD ((q.front + i) % q.capacity) none := by
  simp [content_list, List.getD_eq_getElem?_getD, List.getElem?_map, List.getElem?_range, h]

/-- A cleared queue at any capacity at least 4 is valid. -/
theorem valid_empty {cap : Nat} (h4 : 4 ≤ cap) :
    Valid { capacity := cap, data := List.replicate cap none, front := 0, size := 0 } := by
  refine ⟨List.length_replicate .., h4, Nat.zero_le _, show 0 < cap by omega, ?_⟩
  intro j hj
  simp [getD_replicate]

theorem valid_init (c : Int) : Valid (init c) := by
  have h4 : 4 ≤ (max 4 c).toNat := by
    have := le_max_left 4 c
    omega
  exact valid_empty h4

/-- In a valid queue every slot of the logical window is occupied. -/
theorem valid_window_some {q : CircularQueue} (hv : Valid q) {i : Nat} (hi : i < q.size) :
    (q.data.getD ((q.front + i) % q.capacity) none).isSome := by
  obtain ⟨-, h4, -, -, hocc⟩ := hv
  have hcap : 0 < q.capacity := by omega
  exact (hocc _ (Nat.mod_lt _ hcap)).mpr ⟨i, hi, rfl⟩

/-- In a valid queue every element of the logical sequence is a real record. -/
theorem content_all_some {q : CircularQueue} (hv : Valid q) :
    ∀ x ∈ q.content_list, x.isSome := by
  intro x hx
  simp only [content_list, List.mem_map, List.mem_range] at hx
  obtain ⟨i, hi, rfl⟩ := hx
  exact valid_window_some hv hi

/-- Specification of a successful `enqueue`: the item is appended to the
logical sequence, the pointers move as advertised, and validity is kept
whenever a real record is stored. -/
theorem enqueue_ok {q : CircularQueue} (item : Option SlotRecord) (hv : Valid q)
    (hs : q.size < q.capacity) :
    ∃ q', q.enqueue item = .ok q' ∧ q'.capacity = q.capacity ∧ q'.front = q.front ∧
      q'.size = q.size + 1 ∧ q'.content_list = q.content_list ++ [item] ∧
      (item.isSome → Valid q') := by
  obtain ⟨hlen, h4, hsc, hfr, hocc⟩ := hv
  have hcap : 0 < q.capacity := by omega
  have hfull : q.is_full = false := by
    simp only [is_full, beq_eq_false_iff_ne, ne_eq]
    omega
  have htlt : (q.front + q.size) % q.capacity < q.capacity := Nat.mod_lt _ hcap
  refine ⟨{ q with data := q.data.set ((q.front + q.size) % q.capacity) item,
                   size := q.size + 1 }, ?_, rfl, rfl, rfl, ?_, ?_⟩
  · simp [enqueue, hfull]
  · simp only [content_list]
    rw [List.range_succ, List.map_append]
    congr 1
    · apply List.map_congr_left
      intro i hi
      have hi' : i < q.size := List.mem_range.mp hi
      have hne : (q.front + q.size) % q.capacity ≠ (q.front + i) % q.capacity := by
        intro h
        exact absurd (mod_shift_inj hs (lt_trans hi' hs) h) (Nat.ne_of_gt hi')
      exact getD_set_ne item hne
    · simp only [List.map_cons, List.map_nil, List.cons.injEq, and_true]
      exact getD_set_self item (hlen ▸ htlt)
  · intro hsome
    refine ⟨by simpa using hlen, h4, show q.size + 1 ≤ q.capacity by omega, hfr, ?_⟩
    dsimp only
    intro j hj
    by_cases hjt : j = (q.front + q.size) % q.capacity
    · subst hjt
      rw [getD_set_self item (hlen ▸ htlt)]
      simp only [hsome, true_iff]
      exact ⟨q.size, Nat.lt_succ_self _, rfl⟩
    · rw [getD_set_ne item (fun h => hjt h.symm)]
      rw [hocc j hj]
      constructor
      · rintro ⟨i, hi, hij⟩
        exact ⟨i, Nat.lt_succ_of_lt hi, hij⟩
      · rintro ⟨i, hi, hij⟩
        rcases Nat.lt_succ_iff_lt_or_eq.mp hi with hlt | heq
        · exact ⟨i, hlt, hij⟩
        · subst heq
          exact absurd hij.symm hjt

/-- An `enqueue` on a full queue raises `OverflowError("Queue full")`. -/
theorem enqueue_fail {q : CircularQueue} (item : Option SlotRecord)
    (hs : q.size = q.capacity) :
    q.enqueue item = .error (.overflowError "Queue full") := by
  have hfull : q.is_full = true := by simp [is_full, hs]
  simp [enqueue, hfull]

/-- Specification of a successful `dequeue`: the head of the logical
sequence is returned, the remaining sequence is its tail, and validity is
kept. -/
theorem dequeue_ok {q : CircularQueue} (hv : Valid q) (hs : 0 < q.size) :
    ∃ q', q.dequeue = .ok (q.data.getD q.front none, q') ∧
      q'.capacity = q.capacity ∧ q'.front = (q.front + 1) % q.capacity ∧
      q'.size = q.size - 1 ∧
      q.content_list = q.data.getD q.front none :: q'.content_list ∧
      Valid q' := by
  obtain ⟨hlen, h4, hsc, hfr, hocc⟩ := hv
  have hcap : 0 < q.capacity := by omega
  have hne : q.is_empty = false := by
    simp only [is_empty, beq_eq_false_iff_ne, ne_eq]
    omega
  obtain ⟨k, hk⟩ : ∃ k, q.size = k + 1 := ⟨q.size - 1, by omega⟩
  refine ⟨{ q with data := q.data.set q.front none,
                   front := (q.front + 1) % q.capacity,
                   size := q.size - 1 }, ?_, rfl, rfl, rfl, ?_, ?_⟩
  · simp [dequeue, hne]
  · simp only [content_list, hk, Nat.add_sub_cancel]
    rw [List.range_succ_eq_map, List.map_cons, List.map_map]
    congr 1
    · rw [Nat.add_zero, Nat.mod_eq_of_lt hfr]
    · apply (List.map_congr_left ?_).symm
      intro i hi
      have hi' : i < k := List.mem_range.mp hi
      have hidx : ((q.front + 1) % q.capacity + i) % q.capacity
          = (q.front + (i + 1)) % q.capacity := by
        rw [Nat.mod_add_mod]
        ring_nf
      have hne2 : (q.front + (i + 1)) % q.capacity ≠ q.front := by
        intro h
        have h0 : (q.front + (i + 1)) % q.capacity = (q.front + 0) % q.capacity := by
          rw [h, Nat.add_zero, Nat.mod_eq_of_lt hfr]
        exact absurd (mod_shift_inj (by omega) hcap h0) (by omega)
      simp only [Function.comp]
      rw [hidx, getD_set_ne _ (fun h => hne2 h.symm)]
  · refine ⟨by simpa using hlen, h4, show q.size - 1 ≤ q.capacity by omega,
      show (q.front + 1) % q.capacity < q.capacity from Nat.mod_lt _ hcap, ?_⟩
    dsimp only
    intro j hj
    by_cases hjf : j = q.front
    · subst hjf
      rw [getD_set_self none (hlen ▸ hfr)]
      simp only [Option.isSome_none, Bool.false_eq_true, false_iff]
      rintro ⟨i, hi, hij⟩
      have hij' : ((q.front + 1) % q.capacity + i) % q.capacity
          = (q.front + (i + 1)) % q.capacity := by
        rw [Nat.mod_add_mod]
        ring_nf
      rw [hij'] at hij
      have h0 : (q.front + (i + 1)) % q.capacity = (q.front + 0) % q.capacity := by
        rw [hij, Nat.add_zero, Nat.mod_eq_of_lt hfr]
      exact absurd (mod_shift_inj (by omega) hcap h0) (by omega)
    · rw [getD_set_ne none (fun h => hjf h.symm), hocc j hj]
      constructor
      · rintro ⟨i, hi, hij⟩
        have hi0 : i ≠ 0 := by
          intro h0
          subst h0
          rw [Nat.add_zero, Nat.mod_eq_of_lt hfr] at hij
          exact hjf hij.symm
        refine ⟨i - 1, by omega, ?_⟩
        rw [Nat.mod_add_mod]
        have : q.front + 1 + (i - 1) = q.front + i := by omega
        rw [this, hij]
      · rintro ⟨i, hi, hij⟩
        refine ⟨i + 1, by omega, ?_⟩
        rw [Nat.mod_add_mod] at hij
        have : q.front + 1 + i = q.front + (i + 1) := by omega
        rwa [this] at hij

/-- A `dequeue` on an empty queue raises `IndexError("Queue empty")`. -/
theorem dequeue_fail {q : CircularQueue} (hs : q.size = 0) :
    q.dequeue = .error (.indexError "Queue empty") := by
  have hne : q.is_empty = true := by simp [is_empty, hs]
  simp [dequeue, hne]

/-- Specification of the unguarded re-insertion loop: when the items are
real records and they all fit, the loop succeeds and appends them to the
logical sequence. -/
theorem enqueueAll_ok (items : List (Option SlotRecord)) :
    ∀ q : CircularQueue, Valid q → (∀ x ∈ items, x.isSome) →
      q.size + items.length ≤ q.capacity →
      ∃ q', q.enqueueAll items = .ok q' ∧ Valid q' ∧ q'.capacity = q.capacity ∧
        q'.front = q.front ∧ q'.size = q.size + items.length ∧
        q'.content_list = q.content_list ++ items := by
  induction items with
  | nil =>
    intro q hv _ _
    exact ⟨q, rfl, hv, rfl, rfl, by simp, by simp⟩
  | cons it rest ih =>
    intro q hv hsome hfit
    have hslt : q.size < q.capacity := by
      simp only [List.length_cons] at hfit
      omega
    obtain ⟨q1, he, hcap1, hfr1, hsz1, hcl1, hval1⟩ := enqueue_ok it hv hslt
    have hv1 : Valid q1 := hval1 (hsome it (by simp))
    obtain ⟨q', hrest, hv', hcap', hfr', hsz', hcl'⟩ :=
      ih q1 hv1 (fun x hx => hsome x (by simp [hx]))
        (by simp only [List.length_cons] at hfit; omega)
    refine ⟨q', ?_, hv', by rw [hcap', hcap1], by rw [hfr', hfr1], ?_, ?_⟩
    · simp only [enqueueAll, he]
      exact hrest
    · rw [hsz', hsz1]
      simp only [List.length_cons]
      omega
    · rw [hcl', hcl1]
      simp

/-- The guarded re-insertion loop of `resize_preserve` keeps validity and
appends as many items as fit in the remaining free slots. -/
theorem enqueueUpto_spec (items : List (Option SlotRecord)) :
    ∀ q : CircularQueue, Valid q → (∀ x ∈ items, x.isSome) →
      Valid (q.enqueueUpto items) ∧
      (q.enqueueUpto items).capacity = q.capacity ∧
      (q.enqueueUpto items).front = q.front ∧
      (q.enqueueUpto items).size = min (q.size + items.length) q.capacity ∧
      (q.enqueueUpto items).content_list
        = q.content_list ++ items.take (q.capacity - q.size) := by
  induction items with
  | nil =>
    intro q hv _
    have hsc : q.size ≤ q.capacity := hv.2.2.1
    refine ⟨hv, rfl, rfl, ?_, by simp [enqueueUpto]⟩
    simp only [enqueueUpto, List.length_nil, Nat.add_zero]
    omega
  | cons it rest ih =>
    intro q hv hsome
    by_cases hfull : q.is_full
    · have hsz : q.size = q.capacity := by
        simpa [is_full] using hfull
      have hred : q.enqueueUpto (it :: rest) = q := by
        simp only [enqueueUpto, hfull, if_true]
      rw [hred]
      refine ⟨hv, rfl, rfl, ?_, ?_⟩
      · simp only [List.length_cons]
        omega
      · rw [hsz]
        simp
    · have hslt : q.size < q.capacity := by
        obtain ⟨-, -, hsc, -, -⟩ := hv
        simp only [is_full, beq_iff_eq] at hfull
        omega
      obtain ⟨q1, he, hcap1, hfr1, hsz1, hcl1, hval1⟩ := enqueue_ok it hv hslt
      have hv1 : Valid q1 := hval1 (hsome it (by simp))
      obtain ⟨hv', hcap', hfr', hsz', hcl'⟩ :=
        ih q1 hv1 (fun x hx => hsome x (by simp [hx]))
      have hred : q.enqueueUpto (it :: rest) = q1.enqueueUpto rest := by
        simp only [enqueueUpto]
        rw [if_neg hfull, he]
      rw [hred]
      refine ⟨hv', by rw [hcap', hcap1], by rw [hfr', hfr1], ?_, ?_⟩
      · rw [hsz', hsz1, hcap1]
        simp only [List.length_cons]
        omega
      · rw [hcl', hcl1, hcap1, hsz1]
        have hsub : q.capacity - q.size = (q.capacity - (q.size + 1)) + 1 := by omega
        rw [hsub]
        simp [List.take_succ_cons]

/-- The Python `resize_preserve` loop would propagate an `OverflowError`
from its call to `enqueue`, but the `is_full` guard makes that branch
unreachable for every state whatsoever. -/
theorem enqueueUptoE_eq (items : List (Option SlotRecord)) :
    ∀ q : CircularQueue, q.enqueueUptoE items = .ok (q.enqueueUpto items) := by
  induction items with
  | nil =>
    intro q
    rfl
  | cons it rest ih =>
    intro q
    by_cases hfull : q.is_full
    · simp [enqueueUptoE, enqueueUpto, hfull]
    · have he : q.enqueue it
          = .ok { q with data := q.data.set ((q.front + q.size) % q.capacity) it,
                         size := q.size + 1 } := by
        simp [enqueue, hfull]
      simp only [enqueueUptoE, enqueueUpto]
      rw [if_neg hfull, if_neg hfull, he]
      exact ih _

/-- Specification of `resize_preserve`: the new capacity is
`max(4, new_capacity)`, the pointers are reset, and the logical sequence
is the old one truncated to the new capacity. -/
theorem resize_spec (q : CircularQueue) (c : Int) (hv : Valid q) :
    Valid (q.resize_preserve c) ∧
    (q.resize_preserve c).capacity = (max 4 c).toNat ∧
    (q.resize_preserve c).front = 0 ∧
    (q.resize_preserve c).size = min q.size (max 4 c).toNat ∧
    (q.resize_preserve c).content_list = q.content_list.take (max 4 c).toNat := by
  have h4 : 4 ≤ (max 4 c).toNat := by
    have := le_max_left 4 c
    omega
  have hv0 : Valid { capacity := (max 4 c).toNat,
                     data := List.replicate (max 4 c).toNat none,
                     front := 0, size := 0 } := valid_empty h4
  obtain ⟨hv', hcap', hfr', hsz', hcl'⟩ :=
    enqueueUpto_spec q.content_list _ hv0 (content_all_some hv)
  have hdef : q.resize_preserve c
      = enqueueUpto { capacity := (max 4 c).toNat,
                      data := List.replicate (max 4 c).toNat none,
                      front := 0, size := 0 } q.content_list := rfl
  refine ⟨hv', hcap', hfr', ?_, ?_⟩
  · rw [hdef, hsz']
    dsimp only
    rw [content_list_length]
    omega
  · rw [hdef, hcl']
    dsimp only
    simp [content_list]

/-- Performing `n` consecutive dequeues, collecting the returned items;
an `IndexError` stops the run (it never fires in the uses below). -/
def dequeueN : CircularQueue → Nat → List (Option SlotRecord) × CircularQueue
  | q, 0 => ([], q)
  | q, n + 1 =>
    match q.dequeue with
    | .ok (it, q') =>
      let rest := dequeueN q' n
      (it :: rest.1, rest.2)
    | .error _ => ([], q)

/-- Dequeueing `n ≤ size` times returns the first `n` elements of the
logical sequence, in order. -/
theorem dequeueN_take : ∀ (n : Nat) (q : CircularQueue), Valid q → n ≤ q.size →
    (dequeueN q n).1 = q.content_list.take n := by
  intro n
  induction n with
  | zero =>
    intro q _ _
    simp [dequeueN]
  | succ m ih =>
    intro q hv hn
    obtain ⟨q', hd, hcap', hfr', hsz', hcl', hv'⟩ := dequeue_ok hv (by omega)
    simp only [dequeueN, hd]
    rw [hcl', List.take_succ_cons, ih q' hv' (by omega)]

/-- The truthiness test of the `find_index_by_id` loop: the slot at
absolute index `(front + i) % capacity` holds a record whose id equals
`key`. -/
def matchesKey (q : CircularQueue) (key : String) (i : Nat) : Bool :=
  match q.data.getD ((q.front + i) % q.capacity) none with
  | some r => r.id == key
  | none => false

theorem findRelAux_eq_none {q : CircularQueue} {idx : Nat} {l : List Nat} :
    findRelAux q idx l = none ↔ ∀ i ∈ l, (q.front + i) % q.capacity ≠ idx := by
  induction l with
  | nil => simp [findRelAux]
  | cons i rest ih =>
    by_cases h : (q.front + i) % q.capacity = idx
    · simp [findRelAux, h]
    · simp [findRelAux, h, ih]

theorem findRelAux_eq_some {q : CircularQueue} {idx : Nat} {l : List Nat} {r : Nat}
    (h : findRelAux q idx l = some r) : r ∈ l ∧ (q.front + r) % q.capacity = idx := by
  induction l with
  | nil => simp [findRelAux] at h
  | cons i rest ih =>
    by_cases hc : ((q.front + i) % q.capacity == idx) = true
    · have hred : findRelAux q idx (i :: rest) = some i := by
        simp only [findRelAux]
        rw [if_pos hc]
      rw [hred] at h
      cases h
      exact ⟨by simp, by simpa using hc⟩
    · have hred : findRelAux q idx (i :: rest) = findRelAux q idx rest := by
        simp only [findRelAux]
        rw [if_neg hc]
      rw [hred] at h
      obtain ⟨hmem, heq⟩ := ih h
      exact ⟨by simp [hmem], heq⟩

theorem findIdxAux_eq_none {q : CircularQueue} {key : String} {l : List Nat} :
    findIdxAux q key l = none ↔ ∀ i ∈ l, matchesKey q key i = false := by
  induction l with
  | nil => simp [findIdxAux]
  | cons i rest ih =>
    cases hg : q.data.getD ((q.front + i) % q.capacity) none with
    | none =>
      have hm : matchesKey q key i = false := by
        simp only [matchesKey]
        rw [hg]
      have hred : findIdxAux q key (i :: rest) = findIdxAux q key rest := by
        simp only [findIdxAux]
        rw [hg]
      rw [hred]
      simp [ih, hm]
    | some item =>
      by_cases hid : (item.id == key) = true
      · have hm : matchesKey q key i = true := by
          simp only [matchesKey]
          rw [hg]
          exact hid
        have hred : findIdxAux q key (i :: rest)
            = some ((q.front + i) % q.capacity) := by
          simp only [findIdxAux]
          rw [hg]
          show (if (item.id == key) = true then some ((q.front + i) % q.capacity)
                else findIdxAux q key rest) = _
          exact if_pos hid
        rw [hred]
        simp only [List.forall_mem_cons]
        constructor
        · intro h
          exact absurd h (by simp)
        · intro h
          rw [hm] at h
          exact absurd h.1 (by simp)
      · have hm : matchesKey q key i = false := by
          simp only [matchesKey]
          rw [hg]
          exact Bool.eq_false_iff.mpr hid
        have hred : findIdxAux q key (i :: rest) = findIdxAux q key rest := by
          simp only [findIdxAux]
          rw [hg]
          show (if (item.id == key) = true then some ((q.front + i) % q.capacity)
                else findIdxAux q key rest) = _
          exact if_neg hid
        rw [hred]
        simp [ih, hm]

theorem findIdxAux_eq_some {q : CircularQueue} {key : String} {l : List Nat} {idx : Nat}
    (h : findIdxAux q key l = some idx) :
    ∃ pre i post, l = pre ++ i :: post ∧ matchesKey q key i = true ∧
      (∀ j ∈ pre, matchesKey q key j = false) ∧ idx = (q.front + i) % q.capacity := by
  induction l with
  | nil => simp [findIdxAux] at h
  | cons i rest ih =>
    cases hg : q.data.getD ((q.front + i) % q.capacity) none with
    | none =>
      have hm : matchesKey q key i = false := by
        simp only [matchesKey]
        rw [hg]
      have hred : findIdxAux q key (i :: rest) = findIdxAux q key rest := by
        simp only [findIdxAux]
        rw [hg]
      rw [hred] at h
      obtain ⟨pre, i', post, hl, hm', hpre, hidx⟩ := ih h
      exact ⟨i :: pre, i', post, by simp [hl], hm',
        by simpa [List.forall_mem_cons] using ⟨hm, hpre⟩, hidx⟩
    | some item =>
      by_cases hid : (item.id == key) = true
      · have hred : findIdxAux q key (i :: rest)
            = some ((q.front + i) % q.capacity) := by
          simp only [findIdxAux]
          rw [hg]
          show (if (item.id == key) = true then some ((q.front + i) % q.capacity)
                else findIdxAux q key rest) = _
          exact if_pos hid
        have hm : matchesKey q key i = true := by
          simp only [matchesKey]
          rw [hg]
          exact hid
        rw [hred] at h
        cases h
        exact ⟨[], i, rest, rfl, hm, by simp, rfl⟩
      · have hm : matchesKey q key i = false := by
          simp only [matchesKey]
          rw [hg]
          exact Bool.eq_false_iff.mpr hid
        have hred : findIdxAux q key (i :: rest) = findIdxAux q key rest := by
          simp only [findIdxAux]
          rw [hg]
          show (if (item.id == key) = true then some ((q.front + i) % q.capacity)
                else findIdxAux q key rest) = _
          exact if_neg hid
        rw [hred] at h
        obtain ⟨pre, i', post, hl, hm', hpre, hidx⟩ := ih h
        exact ⟨i :: pre, i', post, by simp [hl], hm',
          by simpa [List.forall_mem_cons] using ⟨hm, hpre⟩, hidx⟩

/-- Any decomposition of `range n` around a distinguished cell identifies
the cell with its position: the prefix is `range i`. -/
theorem range_eq_append {n : Nat} {pre : List Nat} {i : Nat} {post : List Nat}
    (h : List.range n = pre ++ i :: post) : i = pre.length ∧ i < n ∧ pre = List.range i := by
  have hlen : n = pre.length + (post.length + 1) := by
    have := congrArg List.length h
    simpa [Nat.add_assoc] using this
  have hplt : pre.length < n := by omega
  have hpre : pre = List.range pre.length := by
    have ht : (List.range n).take pre.length = pre := by
      rw [h, List.take_left]
    rw [List.take_range, Nat.min_eq_left (Nat.le_of_lt hplt)] at ht
    exact ht.symm
  have hi : i = pre.length := by
    have h1 : (List.range n)[pre.length]? = some pre.length :=
      List.getElem?_range hplt
    have h2 : (List.range n)[pre.length]? = some i := by
      rw [h, List.getElem?_append_right (Nat.le_refl _)]
      simp
    rw [h1] at h2
    exact (Option.some.inj h2).symm
  exact ⟨hi, by omega, hi ▸ hpre⟩

/-- A removal targeting no occupied window position (or an empty queue)
returns `False` and leaves the state untouched. -/
theorem remove_fail {q : CircularQueue} {idx : Nat}
    (h : q.size = 0 ∨ ∀ i, i < q.size → (q.front + i) % q.capacity ≠ idx) :
    q.remove_by_index idx = .ok (false, q) := by
  by_cases h0 : q.size = 0
  · simp [remove_by_index, h0]
  · rcases h with h | hno
    · exact absurd h h0
    · have hrel : findRelAux q idx (List.range q.content_list.length) = none := by
        rw [findRelAux_eq_none]
        intro i hi
        rw [List.mem_range, content_list_length] at hi
        exact hno i hi
      simp [remove_by_index, h0, hrel]

/-- Specification of a successful removal: the element at the unique
relative position `i0` mapping to absolute index `idx` is deleted from
the logical sequence, the rest keeps its order, `front` is reset to 0 and
the capacity is unchanged. -/
theorem remove_ok {q : CircularQueue} {idx i0 : Nat} (hv : Valid q)
    (hi0 : i0 < q.size) (hidx : (q.front + i0) % q.capacity = idx) :
    ∃ q', q.remove_by_index idx = .ok (true, q') ∧ Valid q' ∧
      q'.capacity = q.capacity ∧ q'.front = 0 ∧ q'.size = q.size - 1 ∧
      q'.content_list = q.content_list.take i0 ++ q.content_list.drop (i0 + 1) := by
  have h4 : 4 ≤ q.capacity := hv.2.1
  have hsc : q.size ≤ q.capacity := hv.2.2.1
  have h0 : ¬ q.size = 0 := by omega
  have hrel : findRelAux q idx (List.range q.content_list.length) = some i0 := by
    cases hfind : findRelAux q idx (List.range q.content_list.length) with
    | none =>
      rw [findRelAux_eq_none] at hfind
      exact absurd hidx (hfind i0 (by simp [content_list_length, hi0]))
    | some r =>
      obtain ⟨hmem, heq⟩ := findRelAux_eq_some hfind
      rw [List.mem_range, content_list_length] at hmem
      have hr : r = i0 := mod_shift_inj (by omega) (by omega) (heq.trans hidx.symm)
      rw [← hr]
  have hv0 : Valid { capacity := q.capacity, data := List.replicate q.capacity none,
                     front := 0, size := 0 } := valid_empty h4
  have hnewsome : ∀ x ∈ q.content_list.take i0 ++ q.content_list.drop (i0 + 1),
      x.isSome := by
    intro x hx
    rcases List.mem_append.mp hx with hx | hx
    · exact content_all_some hv x (List.mem_of_mem_take hx)
    · exact content_all_some hv x (List.mem_of_mem_drop hx)
  have hnlen : (q.content_list.take i0 ++ q.content_list.drop (i0 + 1)).length
      = q.size - 1 := by
    simp only [List.length_append, List.length_take, List.length_drop,
      content_list_length]
    omega
  obtain ⟨q', henq, hv', hcap', hfr', hsz', hcl'⟩ :=
    enqueueAll_ok (q.content_list.take i0 ++ q.content_list.drop (i0 + 1)) _ hv0
      hnewsome (by rw [hnlen]; dsimp only; omega)
  refine ⟨q', ?_, hv', by rw [hcap'], by rw [hfr'], ?_, ?_⟩
  · have hbeq : (q.size == 0) = false := by simpa using h0
    simp only [remove_by_index, hbeq, Bool.false_eq_true, if_false, hrel]
    rw [henq]
  · rw [hsz', hnlen]
    simp
  · rw [hcl']
    simp [content_list]

/-- Every public call preserves the data-model invariants. -/
theorem valid_applyOp {q : CircularQueue} (hv : Valid q) (op : Op) :
    Valid (q.applyOp op) := by
  cases op with
  | enq r =>
    by_cases hs : q.size < q.capacity
    · obtain ⟨q', he, -, -, -, -, hval⟩ := enqueue_ok (some r) hv hs
      simp only [applyOp, he]
      exact hval rfl
    · have he := enqueue_fail (q := q) (some r) (by have := hv.2.2.1; omega)
      simp only [applyOp, he]
      exact hv
  | deq =>
    by_cases hs : 0 < q.size
    · obtain ⟨q', hd, -, -, -, -, hv'⟩ := dequeue_ok hv hs
      simp only [applyOp, hd]
      exact hv'
    · have hd := dequeue_fail (q := q) (by omega)
      simp only [applyOp, hd]
      exact hv
  | removeAt idx =>
    by_cases hex : ∃ i, i < q.size ∧ (q.front + i) % q.capacity = idx
    · obtain ⟨i0, hi0, hidx⟩ := hex
      obtain ⟨q', hr, hv', -, -, -, -⟩ := remove_ok hv hi0 hidx
      simp only [applyOp, hr]
      exact hv'
    · push_neg at hex
      have hr := remove_fail (q := q) (Or.inr hex)
      simp only [applyOp, hr]
      exact hv
  | resize c =>
    exact (resize_spec q c hv).1

/-- Validity is preserved along any sequence of public calls. -/
theorem valid_run (ops : List Op) : ∀ q, Valid q → Valid (ops.foldl applyOp q) := by
  induction ops with
  | nil =>
    intro q hv
    exact hv
  | cons op rest ih =>
    intro q hv
    exact ih _ (valid_applyOp hv op)

theorem init_capacity (c : Int) : (init c).capacity = (max 4 c).toNat := rfl

theorem init_size (c : Int) : (init c).size = 0 := rfl

theorem init_content (c : Int) : (init c).content_list = [] := rfl

theorem enqueueUpto_capacity (items : List (Option SlotRecord)) :
    ∀ q : CircularQueue, (q.enqueueUpto items).capacity = q.capacity := by
  induction items with
  | nil =>
    intro q
    rfl
  | cons it rest ih =>
    intro q
    by_cases hfull : q.is_full
    · simp [enqueueUpto, hfull]
    · have he : q.enqueue it
          = .ok { q with data := q.data.set ((q.front + q.size) % q.capacity) it,
                         size := q.size + 1 } := by
        simp [enqueue, hfull]
      simp only [enqueueUpto]
      rw [if_neg hfull, he]
      exact ih _

/-- The capacity after a resize is `max(4, new_capacity)` for every state,
valid or not. -/
theorem resize_capacity (q : CircularQueue) (c : Int) :
    (q.resize_preserve c).capacity = (max 4 c).toNat := by
  have hdef : q.resize_preserve c
      = enqueueUpto { capacity := (max 4 c).toNat,
                      data := List.replicate (max 4 c).toNat none,
                      front := 0, size := 0 } q.content_list := rfl
  rw [hdef, enqueueUpto_capacity]

end CircularQueue

open CircularQueue

/-- Concrete records used in the concrete runs below. -/
def recA : SlotRecord := { id := "A", entry := 0 }

def recB : SlotRecord := { id := "B", entry := 1 }

def recC : SlotRecord := { id := "C", entry := 2 }

def recD : SlotRecord := { id := "D", entry := 3 }

/-- The capacity-4 queue holding A, B, C in arrival order, front 0: the
state reached by three enqueues on a fresh capacity-4 queue. -/
def qABC : CircularQueue :=
  { capacity := 4, data := [some recA, some recB, some recC, none],
    front := 0, size := 3 }

/-- A full capacity-4 queue. -/
def qFull : CircularQueue :=
  { capacity := 4, data := [some recA, some recB, some recC, some recD],
    front := 0, size := 4 }

/-- C1: for every sequence of public operations (enqueue, dequeue,
remove_by_absolute_index, resize_preserving_order) starting from a
constructed queue, every invariant of the data model holds after each
call: `0 ≤ size ≤ capacity` (the lower bound is intrinsic to `Nat`), the
occupied absolute positions are exactly `{(front + i) % capacity : i <
size}` and all other slots are empty, and `capacity ≥ 4`.  Invariant 5
(each absolute index holds at most one record) is intrinsic to the model:
each index of the slot list holds a single `Option SlotRecord`.  Every
prefix of a call sequence is itself a call sequence, so this statement
covers the state after each intermediate call. -/
theorem c1_invariant_preservation (c : Int) (ops : List Op) :
    Valid (ops.foldl applyOp (CircularQueue.init c)) :=
  valid_run ops _ (valid_init c)

/-- C2: from any valid empty queue (in particular a freshly constructed
one), enqueueing the records `rs` (all succeeding, which the capacity
bound guarantees) and then dequeueing `rs.length` times returns exactly
`rs` in arrival order. -/
theorem c2_fifo_order (q : CircularQueue) (rs : List SlotRecord)
    (hv : Valid q) (hsz : q.size = 0) (hfit : rs.length ≤ q.capacity) :
    ∃ q', q.enqueueAll (rs.map some) = .ok q' ∧
      (dequeueN q' rs.length).1 = rs.map some := by
  obtain ⟨q', he, hv', hcap', hfr', hsz', hcl'⟩ :=
    enqueueAll_ok (rs.map some) q hv (by simp)
      (by rw [hsz]; simpa using hfit)
  refine ⟨q', he, ?_⟩
  have hszr : q'.size = rs.length := by
    rw [hsz', hsz]
    simp
  have hcl0 : q.content_list = [] := by
    have hl := content_list_length q
    rw [hsz] at hl
    exact List.eq_nil_of_length_eq_zero hl
  rw [dequeueN_take rs.length q' hv' (by omega), hcl', hcl0, List.nil_append]
  have hlm : (rs.map some).length = rs.length := List.length_map _ _
  rw [← hlm, List.take_length]

/-- C2 witness at a fresh capacity-4 queue and the two records A, B. -/
theorem c2_fifo_order_witness :
    ∃ q', (CircularQueue.init 4).enqueueAll ([recA, recB].map some) = .ok q' ∧
      (dequeueN q' [recA, recB].length).1 = [recA, recB].map some :=
  c2_fifo_order (CircularQueue.init 4) [recA, recB] (valid_init 4) rfl (by decide)

/-- C3 counterexample: resizing the valid 3-element queue `[A, B, C]`
(capacity 4) to `new_cap = 2 < 3 = size` does not truncate the logical
sequence to the first 2 elements — the code clamps the capacity to
`max(4, 2) = 4` first, so all 3 elements survive. -/
theorem c3_resize_truncation_cex :
    Valid qABC ∧ (2:Int) < (qABC.size : Int) ∧
    (qABC.resize_preserve 2).content_list ≠ qABC.content_list.take 2 :=
  ⟨by decide, by decide, by decide⟩

/-- C3 (amended): after `resize_preserve new_cap` on a valid queue, the
capacity is `max(4, new_cap)`; if `new_cap ≥ old size` the logical
sequence is unchanged; and in all cases (in particular when
`new_cap < old size`) the resulting logical sequence is the first
`max(4, new_cap)` elements — the effective new capacity, not the raw
requested `new_cap` — of the pre-resize logical sequence, the rest being
discarded. -/
theorem c3_resize_spec (q : CircularQueue) (c : Int) (hv : Valid q) :
    ((q.resize_preserve c).capacity : Int) = max 4 c ∧
    ((q.size : Int) ≤ c → (q.resize_preserve c).content_list = q.content_list) ∧
    (q.resize_preserve c).content_list = q.content_list.take (max 4 c).toNat := by
  obtain ⟨hv', hcap', hfr', hsz', hcl'⟩ := resize_spec q c hv
  refine ⟨?_, ?_, hcl'⟩
  · rw [hcap']
    have h4 := le_max_left (4:Int) c
    omega
  · intro hge
    rw [hcl']
    apply List.take_of_length_le
    rw [content_list_length]
    have hc := le_max_right (4:Int) c
    omega

/-- C3 witness: growing the 3-element queue to capacity 8 keeps the
sequence. -/
theorem c3_resize_spec_witness :
    ((qABC.resize_preserve 8).capacity : Int) = max 4 (8:Int) ∧
    ((qABC.size : Int) ≤ (8:Int) →
      (qABC.resize_preserve 8).content_list = qABC.content_list) ∧
    (qABC.resize_preserve 8).content_list
      = qABC.content_list.take (max 4 (8:Int)).toNat :=
  c3_resize_spec qABC 8 (by decide)

/-- C4 counterexample: in the round-trip trace (capacity 4; enqueue A, B,
C; dequeue; enqueue D) the claim places D in absolute slot 0 and leaves
slot 3 empty.  The code computes D's slot as `(front + size) % capacity =
(1 + 2) % 4 = 3`: slot 3 holds D and slot 0 is empty — no wrap-around
occurs. -/
theorem c4_round_trip_cex :
    ¬((List.foldl applyOp (CircularQueue.init 4)
        [.enq recA, .enq recB, .enq recC, .deq, .enq recD]).data.getD 0 none
          = some recD ∧
      (List.foldl applyOp (CircularQueue.init 4)
        [.enq recA, .enq recB, .enq recC, .deq, .enq recD]).data.getD 3 none
          = none) := by
  decide

/-- C4 (amended): the round-trip trace behaves as claimed — dequeue
returns A, the queue then holds `[B, C]` with `front = 1`, `size = 2`, and
after enqueueing D it holds `[B, C, D]` with `front = 1`, `size = 3` —
except that D lands in absolute slot 3 and absolute slot 0 is the empty
one (the slot A vacated); no wrap-around occurs in this trace. -/
theorem c4_round_trip :
    ∃ q3 q2 q4,
      (CircularQueue.init 4).enqueueAll [some recA, some recB, some recC] = .ok q3 ∧
      q3.dequeue = .ok (some recA, q2) ∧
      q2.content_list = [some recB, some recC] ∧ q2.front = 1 ∧ q2.size = 2 ∧
      q2.enqueue (some recD) = .ok q4 ∧
      q4.content_list = [some recB, some recC, some recD] ∧
      q4.front = 1 ∧ q4.size = 3 ∧
      q4.data.getD 3 none = some recD ∧ q4.data.getD 0 none = none :=
  ⟨{ capacity := 4, data := [some recA, some recB, some recC, none],
     front := 0, size := 3 },
   { capacity := 4, data := [none, some recB, some recC, none],
     front := 1, size := 2 },
   { capacity := 4, data := [none, some recB, some recC, some recD],
     front := 1, size := 3 },
   by decide⟩

/-- C5: on a valid queue, `remove_by_index` fails (returning `False` and
leaving the state untouched) when the queue is empty or when no window
position maps to `idx`; when some relative position `i0` maps to `idx`
the call succeeds, the new logical sequence is the old one with exactly
the element at `i0` (the record stored at absolute index `idx`) deleted,
order otherwise preserved, `front` is reset to 0 and the capacity is
unchanged. -/
theorem c5_remove_spec (q : CircularQueue) (idx : Nat) (hv : Valid q) :
    (q.size = 0 → q.remove_by_index idx = .ok (false, q)) ∧
    ((∀ i, i < q.size → (q.front + i) % q.capacity ≠ idx) →
      q.remove_by_index idx = .ok (false, q)) ∧
    (∀ i0, i0 < q.size → (q.front + i0) % q.capacity = idx →
      ∃ q', q.remove_by_index idx = .ok (true, q') ∧
        q'.content_list = q.content_list.take i0 ++ q.content_list.drop (i0 + 1) ∧
        q'.front = 0 ∧ q'.capacity = q.capacity ∧ q'.size = q.size - 1 ∧
        q.content_list.getD i0 none = q.data.getD idx none) := by
  refine ⟨fun h0 => remove_fail (Or.inl h0),
          fun hno => remove_fail (Or.inr hno), ?_⟩
  intro i0 hi0 hidx
  obtain ⟨q', hr, hv', hcap', hfr', hsz', hcl'⟩ := remove_ok hv hi0 hidx
  exact ⟨q', hr, hcl', hfr', hcap', hsz', by rw [content_list_getD q hi0, hidx]⟩

/-- C5 witness: removing absolute index 1 (record B) from the queue
`[A, B, C]` of capacity 4. -/
theorem c5_remove_spec_witness :
    ∃ q', qABC.remove_by_index 1 = .ok (true, q') ∧
      q'.content_list = qABC.content_list.take 1 ++ qABC.content_list.drop 2 ∧
      q'.front = 0 ∧ q'.capacity = qABC.capacity ∧ q'.size = qABC.size - 1 ∧
      qABC.content_list.getD 1 none = qABC.data.getD 1 none :=
  (c5_remove_spec qABC 1 (by decide)).2.2 1 (by decide) (by decide)

/-- C6: `enqueue` fails — with `OverflowError("Queue full")` and no other
error — exactly when `size == capacity`, and a failing call leaves the
state unchanged (the caught-exception step of `applyOp` returns the very
same state); `dequeue` fails — with `IndexError("Queue empty")` and no
other error — exactly when `size == 0`, likewise leaving the state
unchanged.  In this functional embedding the checks are the first step of
each operation, so a failing call constructs no new state at all. -/
theorem c6_error_conditions (q : CircularQueue) (item : Option SlotRecord)
    (r : SlotRecord) :
    (q.enqueue item = .error (.overflowError "Queue full") ↔ q.size = q.capacity) ∧
    ((∃ e, q.enqueue item = .error e) ↔ q.size = q.capacity) ∧
    (q.size = q.capacity → q.applyOp (.enq r) = q) ∧
    (q.dequeue = .error (.indexError "Queue empty") ↔ q.size = 0) ∧
    ((∃ e, q.dequeue = .error e) ↔ q.size = 0) ∧
    (q.size = 0 → q.applyOp .deq = q) := by
  have henqFull : ∀ it : Option SlotRecord, q.size = q.capacity →
      q.enqueue it = .error (.overflowError "Queue full") :=
    fun it hs => enqueue_fail it hs
  have hdeqEmpty : q.size = 0 → q.dequeue = .error (.indexError "Queue empty") :=
    fun hz => dequeue_fail hz
  have henqOk : q.size ≠ q.capacity → ∃ q', q.enqueue item = .ok q' := by
    intro hs
    have hfull : q.is_full = false := by
      simp only [is_full, beq_eq_false_iff_ne, ne_eq]
      exact hs
    refine ⟨{ q with data := q.data.set ((q.front + q.size) % q.capacity) item,
                     size := q.size + 1 }, ?_⟩
    simp [enqueue, hfull]
  have hdeqOk : q.size ≠ 0 → ∃ p, q.dequeue = .ok p := by
    intro hz
    have hempty : q.is_empty = false := by
      simp only [is_empty, beq_eq_false_iff_ne, ne_eq]
      exact hz
    refine ⟨(q.data.getD q.front none,
             { q with data := q.data.set q.front none,
                      front := (q.front + 1) % q.capacity,
                      size := q.size - 1 }), ?_⟩
    simp [dequeue, hempty]
  refine ⟨⟨?_, fun hs => henqFull item hs⟩, ⟨?_, fun hs => ⟨_, henqFull item hs⟩⟩, ?_,
          ⟨?_, fun hz => hdeqEmpty hz⟩, ⟨?_, fun hz => ⟨_, hdeqEmpty hz⟩⟩, ?_⟩
  · intro h
    by_contra hs
    obtain ⟨q', hq⟩ := henqOk hs
    rw [hq] at h
    exact Except.noConfusion h
  · rintro ⟨e, he⟩
    by_contra hs
    obtain ⟨q', hq⟩ := henqOk hs
    rw [hq] at he
    exact Except.noConfusion he
  · intro hs
    simp [applyOp, henqFull (some r) hs]
  · intro h
    by_contra hz
    obtain ⟨p, hp⟩ := hdeqOk hz
    rw [hp] at h
    exact Except.noConfusion h
  · rintro ⟨e, he⟩
    by_contra hz
    obtain ⟨p, hp⟩ := hdeqOk hz
    rw [hp] at he
    exact Except.noConfusion he
  · intro hz
    simp [applyOp, hdeqEmpty hz]

/-- C6 witness: the overflow failure on a concrete full queue and the
underflow failure on a fresh queue, both leaving the state unchanged. -/
theorem c6_error_conditions_witness :
    qFull.enqueue (some recA) = .error (.overflowError "Queue full") ∧
    qFull.applyOp (.enq recA) = qFull ∧
    (CircularQueue.init 4).dequeue = .error (.indexError "Queue empty") ∧
    (CircularQueue.init 4).applyOp .deq = CircularQueue.init 4 :=
  ⟨(c6_error_conditions qFull (some recA) recA).1.mpr (by decide),
   (c6_error_conditions qFull (some recA) recA).2.2.1 (by decide),
   (c6_error_conditions (CircularQueue.init 4) (some recA) recA).2.2.2.1.mpr rfl,
   (c6_error_conditions (CircularQueue.init 4) (some recA) recA).2.2.2.2.2 rfl⟩

/-- C7: `find_index_by_id` returns `none` exactly when no logical position
`0 ≤ i < size` matches the key, and when it returns an absolute index it
is `(front + i) % capacity` for the earliest matching logical position
`i` (earliest arrival wins among duplicates); `matchesKey` is the loop's
test — the slot is occupied and its record's id equals the key exactly. -/
theorem c7_find_by_key (q : CircularQueue) (key : String) (_hv : Valid q) :
    (q.find_index_by_id key = none ↔ ∀ i, i < q.size → matchesKey q key i = false) ∧
    (∀ idx, q.find_index_by_id key = some idx →
      ∃ i, i < q.size ∧ idx = (q.front + i) % q.capacity ∧
        matchesKey q key i = true ∧ ∀ j, j < i → matchesKey q key j = false) := by
  constructor
  · rw [find_index_by_id, findIdxAux_eq_none]
    constructor
    · intro h i hi
      exact h i (List.mem_range.mpr hi)
    · intro h i hi
      exact h i (List.mem_range.mp hi)
  · intro idx h
    rw [find_index_by_id] at h
    obtain ⟨pre, i, post, hl, hm, hpre, hidx⟩ := findIdxAux_eq_some h
    obtain ⟨hip, hin, hprerange⟩ := range_eq_append hl
    refine ⟨i, hin, hidx, hm, ?_⟩
    intro j hj
    apply hpre
    rw [hprerange]
    exact List.mem_range.mpr hj

/-- C7 witness: searching for key "B" in the queue `[A, B, C]` returns
absolute index 1, the earliest match. -/
theorem c7_find_by_key_witness :
    ∃ i, i < qABC.size ∧ (1:Nat) = (qABC.front + i) % qABC.capacity ∧
      matchesKey qABC "B" i = true ∧ ∀ j, j < i → matchesKey qABC "B" j = false :=
  (c7_find_by_key qABC "B" (by decide)).2 1 (by decide)

/-- C8: for every requested capacity below 4 — negative values included —
construction and `resize_preserve` both clamp the capacity to 4.  Neither
operation has an error outcome in the code: `__init__` and
`resize_preserve` are total (the resize theorem here holds for every
state, valid or not), so the too-small request is silently clamped, never
rejected or reported. -/
theorem c8_capacity_floor (c : Int) (q : CircularQueue) (hc : c < 4) :
    (CircularQueue.init c).capacity = 4 ∧ (q.resize_preserve c).capacity = 4 := by
  have hmax : max 4 c = 4 := max_eq_left (le_of_lt hc)
  constructor
  · rw [init_capacity, hmax]
    rfl
  · rw [resize_capacity, hmax]
    rfl

/-- C8 witness: requesting capacity 2 at construction and at resize both
yield capacity 4. -/
theorem c8_capacity_floor_witness :
    (CircularQueue.init 2).capacity = 4 ∧
    ((CircularQueue.init 8).resize_preserve 2).capacity = 4 :=
  c8_capacity_floor 2 (CircularQueue.init 8) (by decide)

/-- C9 counterexample: the two variants do not produce the same errors.
On a full queue `app.py` raises `OverflowError("Queue is full")` while
`improved_app.py` raises `OverflowError("Queue full")`; on an empty queue
`app.py` raises `IndexError("Queue is empty")` while `improved_app.py`
raises `IndexError("Queue empty")`. -/
theorem c9_variant_equiv_cex :
    BasicQueue.enqueue qFull (some recA) ≠ qFull.enqueue (some recA) ∧
    BasicQueue.dequeue (CircularQueue.init 4) ≠ (CircularQueue.init 4).dequeue := by
  decide

/-- C9 (amended): the two `CircularQueue` variants agree on construction,
`is_full`, `is_empty`, `content_list`, and on every successful `enqueue` /
`dequeue` (same result, same resulting state); on failure both raise the
same exception kind but with different messages: `app.py` says
"Queue is full" / "Queue is empty" where `improved_app.py` says
"Queue full" / "Queue empty". -/
theorem c9_variant_equiv (c : Int) (q : CircularQueue) (item : Option SlotRecord) :
    BasicQueue.init c = CircularQueue.init c ∧
    BasicQueue.is_full q = q.is_full ∧
    BasicQueue.is_empty q = q.is_empty ∧
    BasicQueue.content_list q = q.content_list ∧
    (q.size ≠ q.capacity → BasicQueue.enqueue q item = q.enqueue item) ∧
    (q.size = q.capacity →
      BasicQueue.enqueue q item = .error (.overflowError "Queue is full") ∧
      q.enqueue item = .error (.overflowError "Queue full")) ∧
    (q.size ≠ 0 → BasicQueue.dequeue q = q.dequeue) ∧
    (q.size = 0 →
      BasicQueue.dequeue q = .error (.indexError "Queue is empty") ∧
      q.dequeue = .error (.indexError "Queue empty")) := by
  refine ⟨rfl, rfl, rfl, rfl, ?_, ?_, ?_, ?_⟩
  · intro hs
    have hfull : q.is_full = false := by
      simp only [is_full, beq_eq_false_iff_ne, ne_eq]
      exact hs
    have hbfull : BasicQueue.is_full q = false := hfull
    simp [BasicQueue.enqueue, enqueue, hfull, hbfull]
  · intro hs
    have hfull : q.is_full = true := by simp [is_full, hs]
    have hbfull : BasicQueue.is_full q = true := hfull
    constructor
    · simp [BasicQueue.enqueue, hbfull]
    · simp [enqueue, hfull]
  · intro hz
    have hempty : q.is_empty = false := by
      simp only [is_empty, beq_eq_false_iff_ne, ne_eq]
      exact hz
    have hbempty : BasicQueue.is_empty q = false := hempty
    simp [BasicQueue.dequeue, dequeue, hempty, hbempty]
  · intro hz
    have hempty : q.is_empty = true := by simp [is_empty, hz]
    have hbempty : BasicQueue.is_empty q = true := hempty
    constructor
    · simp [BasicQueue.dequeue, hbempty]
    · simp [dequeue, hempty]

/-- C9 witness: agreement on a successful enqueue from a fresh queue, and
the two distinct messages on a full and an empty queue. -/
theorem c9_variant_equiv_witness :
    BasicQueue.enqueue (CircularQueue.init 4) (some recA)
      = (CircularQueue.init 4).enqueue (some recA) ∧
    BasicQueue.enqueue qFull (some recA) = .error (.overflowError "Queue is full") ∧
    qFull.enqueue (some recA) = .error (.overflowError "Queue full") ∧
    BasicQueue.dequeue (CircularQueue.init 4) = .error (.indexError "Queue is empty") :=
  ⟨(c9_variant_equiv 4 (CircularQueue.init 4) (some recA)).2.2.2.2.1 (by decide),
   ((c9_variant_equiv 4 qFull (some recA)).2.2.2.2.2.1 (by decide)).1,
   ((c9_variant_equiv 4 qFull (some recA)).2.2.2.2.2.1 (by decide)).2,
   ((c9_variant_equiv 4 (CircularQueue.init 4) (some recA)).2.2.2.2.2.2.2 rfl).1⟩

/-- C10: from any valid state the internal re-insertion loops cannot hit
the `enqueue` overflow error: `remove_by_index` always returns normally
(an `.ok` outcome, never a propagated exception), and the `resize_preserve`
loop is pointwise equal to its exception-propagating variant — the
`OverflowError` branch behind the `is_full` guard is unreachable (that
second fact holds for every state whatsoever). -/
theorem c10_reinsertion_safe (q : CircularQueue) (hv : Valid q) :
    (∀ idx, ∃ b q', q.remove_by_index idx = .ok (b, q')) ∧
    (∀ items, q.enqueueUptoE items = .ok (q.enqueueUpto items)) := by
  constructor
  · intro idx
    by_cases hex : ∃ i, i < q.size ∧ (q.front + i) % q.capacity = idx
    · obtain ⟨i0, hi0, hidx⟩ := hex
      obtain ⟨q', hr, -, -, -, -, -⟩ := remove_ok hv hi0 hidx
      exact ⟨true, q', hr⟩
    · push_neg at hex
      exact ⟨false, q, remove_fail (Or.inr hex)⟩
  · intro items
    exact enqueueUptoE_eq items q

/-- C10 witness at the concrete queue `[A, B, C]`. -/
theorem c10_reinsertion_safe_witness :
    (∃ b q', qABC.remove_by_index 0 = .ok (b, q')) ∧
    qABC.enqueueUptoE [some recD] = .ok (qABC.enqueueUpto [some recD]) :=
  ⟨(c10_reinsertion_safe qABC (by decide)).1 0,
   (c10_reinsertion_safe qABC (by decide)).2 [some recD]⟩
